import Mathlib

/-!
Shallow embedding of the rhuffman Huffman codec core
(`src/rhuffman/src/huffman_tree/*.rs`).

Symbols are drawn from an arbitrary linearly ordered type `α`, mirroring the
Rust generic `T: Eq + Hash + Clone + Ord`.  Rust's `u64`/`usize` weights are
modelled as `Nat` (no claim here concerns overflow).  The `BinaryHeap` of
`Reverse`-wrapped weighted nodes is modelled as a bag (`List`) with an
explicit minimum-removal operation `popMin`; `BitVec` is modelled as
`List Bool`.
-/

namespace Rhuffman

variable {α : Type} [LinearOrder α]

/-- Model of `HuffmanNode<T>` from `huffman_node.rs`: a leaf holding one symbol, or a
branch holding an ordered pair of children (`links.0`, `links.1`). -/
inductive HuffmanNode (α : Type) where
  | leaf (symbol : α)
  | branch (zero one : HuffmanNode α)
  deriving DecidableEq, Repr

/-- Model of `Ord for HuffmanNode<T>` (`huffman_node.rs`): a Leaf is greater than a
Branch; Leaves compare by symbol; Branches compare recursively by their
first child (`links.0`). -/
def HuffmanNode.cmp : HuffmanNode α → HuffmanNode α → Ordering
  | .leaf _, .branch _ _ => .gt
  | .branch _ _, .leaf _ => .lt
  | .leaf a, .leaf b => compare a b
  | .branch l1 _, .branch l2 _ => HuffmanNode.cmp l1 l2

/-- The multiset of symbols at the leaves of a tree, left to right. -/
def HuffmanNode.symbols : HuffmanNode α → List α
  | .leaf s => [s]
  | .branch l r => l.symbols ++ r.symbols

/-- Model of `Weighted<T>` from `huffman_node.rs`: a tree paired with its transient
construction-time weight. -/
structure Weighted (α : Type) where
  node : HuffmanNode α
  weight : Nat
  deriving DecidableEq, Repr

/-- Model of `Weighted::new_leaf`. -/
def Weighted.new_leaf (symbol : α) (weight : Nat) : Weighted α :=
  ⟨.leaf symbol, weight⟩

/-- Model of `Weighted::new_branch`: the `greater` argument becomes the first child
(`links.0`) and the `lower` argument the second child (`links.1`); the
weight is the sum of the two. -/
def Weighted.new_branch (greater lower : Weighted α) : Weighted α :=
  ⟨.branch greater.node lower.node, greater.weight + lower.weight⟩

/-- Model of `Ord for Weighted<T>` (`huffman_node.rs` lines 44–63, and identically
`Ord for WeightedHuffmanNode<T>` in `huffman_element.rs` lines 48–65):
weight ascending; on a tie a Branch is less than a Leaf, two Leaves compare
by symbol, and two Branches compare by their first children under
`HuffmanNode.cmp`. -/
def Weighted.cmp (x y : Weighted α) : Ordering :=
  let ordering := compare x.weight y.weight
  if ordering = .eq then
    match x.node, y.node with
    | .leaf _, .branch _ _ => .gt
    | .branch _ _, .leaf _ => .lt
    | .leaf a, .leaf b => compare a b
    | .branch l1 _, .branch l2 _ => HuffmanNode.cmp l1 l2
  else ordering

/-- Removal of a least element (under `Weighted.cmp`) from the bag modelling
`BinaryHeap<Reverse<Weighted<T>>>::pop`; returns the removed element and the
remaining bag.  Among several minimal elements the earliest is taken (in the
reachable states of the builder no two heap elements ever compare `eq`, so
the choice is immaterial). -/
def popMin : List (Weighted α) → Option (Weighted α × List (Weighted α))
  | [] => none
  | x :: xs =>
    match popMin xs with
    | none => some (x, [])
    | some (m, rest) =>
      if Weighted.cmp m x = .lt then some (m, x :: rest) else some (x, xs)

theorem popMin_eq_none_iff (l : List (Weighted α)) :
    popMin l = none ↔ l = [] := by
  cases l with
  | nil => simp [popMin]
  | cons x xs =>
    simp only [popMin]
    rcases h : popMin xs with _ | ⟨m, rest⟩ <;> simp
    split <;> simp

theorem popMin_length {l : List (Weighted α)} {x rest}
    (h : popMin l = some (x, rest)) : rest.length + 1 = l.length := by
  induction l generalizing x rest with
  | nil => simp [popMin] at h
  | cons a as ih =>
    rcases h' : popMin as with _ | ⟨m, r⟩
    · obtain rfl := (popMin_eq_none_iff as).1 h'
      simp only [popMin, h'] at h
      simp only [Option.some.injEq, Prod.mk.injEq] at h
      obtain ⟨rfl, rfl⟩ := h
      simp
    · simp only [popMin, h'] at h
      split at h <;>
        simp only [Option.some.injEq, Prod.mk.injEq] at h <;>
        obtain ⟨rfl, rfl⟩ := h
      · have := ih h'
        simp only [List.length_cons] at *
        omega
      · rfl

theorem popMin_perm {l : List (Weighted α)} {x rest}
    (h : popMin l = some (x, rest)) : l.Perm (x :: rest) := by
  induction l generalizing x rest with
  | nil => simp [popMin] at h
  | cons a as ih =>
    rcases h' : popMin as with _ | ⟨m, r⟩
    · obtain rfl := (popMin_eq_none_iff as).1 h'
      simp only [popMin, h'] at h
      simp only [Option.some.injEq, Prod.mk.injEq] at h
      obtain ⟨rfl, rfl⟩ := h
      exact List.Perm.refl _
    · simp only [popMin, h'] at h
      split at h <;>
        simp only [Option.some.injEq, Prod.mk.injEq] at h <;>
        obtain ⟨rfl, rfl⟩ := h
      · exact ((ih h').cons a).trans (List.Perm.swap _ _ _)
      · exact List.Perm.refl _

/-- The body of the merge loop of `HuffmanGenerator::into_huffman_tree`
(`huffman_generator.rs` lines 74–79), bounded by an iteration count: while
more than one node remains, pop the least node (`lower`), pop the next
least (`greater`), and push the branch `new_branch(greater, lower)`. -/
def mergeN : Nat → List (Weighted α) → List (Weighted α)
  | 0, heap => heap
  | n + 1, heap =>
    if 1 < heap.length then
      match popMin heap with
      | some (lower, rest) =>
        match popMin rest with
        | some (greater, rest2) =>
          mergeN n (Weighted.new_branch greater lower :: rest2)
        | none => heap
      | none => heap
    else heap

/-- The merge loop itself.  Every iteration removes two nodes and adds one,
so the heap shrinks by one node per iteration and `heap.length` iterations
always suffice: the bounded loop with that much fuel is exactly the `while
symbols.len() > 1` loop. -/
def mergeLoop (heap : List (Weighted α)) : List (Weighted α) :=
  mergeN heap.length heap

theorem mergeN_succ (n : Nat) (heap : List (Weighted α)) :
    mergeN (n + 1) heap =
      if 1 < heap.length then
        match popMin heap with
        | some (lower, rest) =>
          match popMin rest with
          | some (greater, rest2) =>
            mergeN n (Weighted.new_branch greater lower :: rest2)
          | none => heap
        | none => heap
      else heap := rfl

theorem mergeN_base :
    ∀ (fuel : Nat) (heap : List (Weighted α)), ¬ 1 < heap.length →
      mergeN fuel heap = heap
  | 0, _, _ => rfl
  | fuel + 1, heap, h => by rw [mergeN_succ, if_neg h]

/-- Model of `HuffmanGenerator::into_huffman_tree` (`huffman_generator.rs` lines
64–82).  The frequency table (`HashMap<T, usize>`) is modelled as an
association list of symbol/count pairs; returning `none` models both the
explicit empty-table `None` and the (unreachable) final `unwrap` panic. -/
def into_huffman_tree (table : List (α × Nat)) : Option (HuffmanNode α) :=
  if table.length = 0 then none
  else
    match popMin (mergeLoop (table.map fun p => Weighted.new_leaf p.1 p.2)) with
    | some (w, _) => some w.node
    | none => none

/-- Lookup in the association list modelling `HashMap<T, BitVec>::get`:
the value of the first entry whose key equals the requested symbol. -/
def mapGet : List (α × List Bool) → α → Option (List Bool)
  | [], _ => none
  | e :: m, s => if e.1 = s then some e.2 else mapGet m s

/-- Insertion into the association list modelling
`HashMap<T, BitVec>::insert`: an existing entry for the key is replaced in
place, otherwise a fresh entry is added. -/
def mapInsert (s : α) (c : List Bool) (m : List (α × List Bool)) :
    List (α × List Bool) :=
  if m.any fun p => p.1 = s then
    m.map fun p => if p.1 = s then (s, c) else p
  else (s, c) :: m

/-- Model of `HuffmanEncoder::visit_tree` (`huffman_encoder.rs` lines 51–68): at a
Leaf record the accumulated prefix for its symbol; at a Branch visit the
first child with bit `false` appended, then the second child with bit
`true` appended. -/
def visit_tree (tree : HuffmanNode α) ( current_prefix : List Bool)
    (symbols : List (α × List Bool)) : List (α × List Bool) :=
  match tree with
  | .leaf s => mapInsert s current_prefix symbols
  | .branch l r =>
    visit_tree r ( current_prefix ++ [true])
      (visit_tree l ( current_prefix ++ [false]) symbols)

/-- Model of `HuffmanEncoder::from_tree` (`huffman_encoder.rs` lines 44–49): the
derived codeword map. -/
def from_tree (tree : HuffmanNode α) : List (α × List Bool) :=
  visit_tree tree [] []

/-- The loop body of `HuffmanEncoder::encode`, accumulating the output
bit vector. -/
def encodeGo (symbols : List (α × List Bool)) (bitvec : List Bool) :
    List α → Except α (List Bool)
  | [] => .ok bitvec
  | s :: rest =>
    match mapGet symbols s with
    | some code => encodeGo symbols (bitvec ++ code) rest
    | none => .error s

/-- Model of `HuffmanEncoder::encode` (`huffman_encoder.rs` lines 73–83): append each
symbol's codeword in order; on the first symbol with no codeword return an
error carrying that symbol. -/
def encode (symbols : List (α × List Bool)) (stream : List α) :
    Except α (List Bool) :=
  encodeGo symbols [] stream

/-- Model of `HuffmanDecoder::decode_single_symbol` (`huffman_decoder.rs`): walk from
the root consuming one bit per Branch (`false` = first child, `true` =
second child) until a Leaf, whose symbol is returned along with the new
cursor; at a Leaf the cursor does not advance.  `none` models the
out-of-bounds panic of `buffer[*pos]`. -/
def decode_single_symbol (buffer : List Bool) :
    HuffmanNode α → Nat → Option (α × Nat)
  | .leaf s, pos => some (s, pos)
  | .branch l r, pos =>
    match buffer.get? pos with
    | none => none
    | some true => decode_single_symbol buffer r (pos + 1)
    | some false => decode_single_symbol buffer l (pos + 1)

/-- The `while pos < buffer.len()` loop of
`HuffmanDecoder::decode_unbounded` (`huffman_decoder.rs` lines 14–23), with
an explicit fuel parameter since the Rust loop need not terminate (a
single-Leaf tree never advances the cursor).  `none` means the fuel ran
out before the loop exited; `some none` models an index panic inside
`decode_single_symbol`; `some (some (result, pos))` is normal termination
with the decoded symbols and the final cursor. -/
def decodeLoop (buffer : List Bool) (root : HuffmanNode α) :
    Nat → Nat → List α → Option (Option (List α × Nat))
  | 0, _, _ => none
  | fuel + 1, pos, result =>
    if pos < buffer.length then
      match decode_single_symbol buffer root pos with
      | none => some none
      | some (s, pos') => decodeLoop buffer root fuel pos' (result ++ [s])
    else some (some (result, pos))

/-- Model of `HuffmanDecoder::decode_unbounded`, fueled, forgetting the final cursor
position. -/
def decode_unbounded (root : HuffmanNode α) (buffer : List Bool)
    (fuel : Nat) : Option (Option (List α)) :=
  (decodeLoop buffer root fuel 0 []).map (Option.map Prod.fst)

/-- Length of the first-child chain of a tree (0 for a leaf). -/
def HuffmanNode.spine : HuffmanNode α → Nat
  | .leaf _ => 0
  | .branch l _ => l.spine + 1

/-- The symbol of the leaf reached by always taking the first child. -/
def HuffmanNode.leftmost : HuffmanNode α → α
  | .leaf s => s
  | .branch l _ => l.leftmost

/-- The symbol/codeword pairs of a tree, with the codeword built by
prepending `false` when coming from a first child and `true` when coming
from a second child (the pre-order path from the root, root-to-leaf). -/
def codesOf : HuffmanNode α → List (α × List Bool)
  | .leaf s => [(s, [])]
  | .branch l r =>
    ((codesOf l).map fun p => (p.1, false :: p.2)) ++
      ((codesOf r).map fun p => (p.1, true :: p.2))

/-- The codeword-derivation contract as the spec words it (§4.3): a single
pre-order traversal carrying the current prefix, appending bit `false` when
descending into the first child and `true` into the second, recording the
accumulated prefix at each leaf. -/
def leafCodes (t : HuffmanNode α) (pre : List Bool) : List (α × List Bool) :=
  match t with
  | .leaf s => [(s, pre)]
  | .branch l r => leafCodes l (pre ++ [false]) ++ leafCodes r (pre ++ [true])

/-- Concatenation of the codewords of a stream of symbols under a codeword
map (the successful result of `encode`). -/
def codebits (symbols : List (α × List Bool)) (stream : List α) : List Bool :=
  (stream.map fun s => (mapGet symbols s).getD []).flatten

/-- The multiset of symbols spread over the weighted nodes of a heap. -/
def heapSymbols (heap : List (Weighted α)) : List α :=
  (heap.map fun w => w.node.symbols).flatten

/-- Rules 2–4 of the spec's merge order (§4.2), in the form in which they
apply below the top level, where children carry no weight: a Branch sorts
before (is smaller than) a Leaf; two Leaves compare by the Symbol type's
total order, ascending; two Branches compare recursively by each Branch's
first child. -/
def spec_tie_break : HuffmanNode α → HuffmanNode α → Ordering
  | .branch _ _, .leaf _ => .lt
  | .leaf _, .branch _ _ => .gt
  | .leaf a, .leaf b => compare a b
  | .branch l1 _, .branch l2 _ => spec_tie_break l1 l2

/-- The total order of §4.2 as the spec words it, over weighted
construction nodes: primary key the weight, ascending; on a weight tie the
structural rules of `spec_tie_break`. -/
def spec_order (x y : Weighted α) : Ordering :=
  match compare x.weight y.weight with
  | .lt => .lt
  | .gt => .gt
  | .eq => spec_tie_break x.node y.node

theorem compare_succ_succ (a b : Nat) : compare (a + 1) (b + 1) = compare a b := by
  rcases lt_trichotomy a b with h | h | h
  · rw [compare_lt_iff_lt.2 h, compare_lt_iff_lt.2 (by omega)]
  · subst h
    rw [compare_eq_iff_eq.2 rfl, compare_eq_iff_eq.2 rfl]
  · rw [compare_gt_iff_gt.2 h, compare_gt_iff_gt.2 (by omega)]

theorem compare_swap' (a b : α) : (compare a b).swap = compare b a := by
  rcases lt_trichotomy a b with h | h | h
  · rw [compare_lt_iff_lt.2 h, compare_gt_iff_gt.2 h]
    rfl
  · subst h
    rw [compare_eq_iff_eq.2 rfl]
    rfl
  · rw [compare_gt_iff_gt.2 h, compare_lt_iff_lt.2 h]
    rfl

/-- Characterization: `HuffmanNode.cmp` compares the pair (spine length descending, leftmost
symbol ascending) lexicographically. -/
theorem HuffmanNode.cmp_spine_char (x y : HuffmanNode α) :
    HuffmanNode.cmp x y =
      (compare y.spine x.spine).then (compare x.leftmost y.leftmost) := by
  induction x generalizing y with
  | leaf a =>
    cases y with
    | leaf b =>
      simp [HuffmanNode.cmp, HuffmanNode.spine, HuffmanNode.leftmost,
        compare_eq_iff_eq.2 (rfl : (0 : Nat) = 0), Ordering.then]
    | branch l r =>
      simp [HuffmanNode.cmp, HuffmanNode.spine, HuffmanNode.leftmost,
        compare_gt_iff_gt.2 (Nat.succ_pos l.spine), Ordering.then]
  | branch l r ihl ihr =>
    cases y with
    | leaf b =>
      simp [HuffmanNode.cmp, HuffmanNode.spine, HuffmanNode.leftmost,
        compare_lt_iff_lt.2 (Nat.succ_pos l.spine), Ordering.then]
    | branch l2 r2 =>
      simp only [HuffmanNode.cmp, HuffmanNode.spine, HuffmanNode.leftmost,
        compare_succ_succ]
      exact ihl l2

/-- The weight tie-break of `Weighted.cmp` is exactly `HuffmanNode.cmp` on
the payload trees. -/
theorem Weighted.cmp_char (x y : Weighted α) :
    Weighted.cmp x y =
      (compare x.weight y.weight).then (HuffmanNode.cmp x.node y.node) := by
  obtain ⟨xn, xw⟩ := x
  obtain ⟨yn, yw⟩ := y
  rcases h : compare xw yw with _ | _ | _ <;>
    cases xn <;> cases yn <;>
    simp [Weighted.cmp, HuffmanNode.cmp, h, Ordering.then]

/-- Characterization: `Weighted.cmp` compares the triple (weight ascending, spine descending,
leftmost symbol ascending) lexicographically. -/
theorem Weighted.cmp_key (x y : Weighted α) :
    Weighted.cmp x y =
      (compare x.weight y.weight).then
        ((compare y.node.spine x.node.spine).then
          (compare x.node.leftmost y.node.leftmost)) := by
  rw [Weighted.cmp_char, HuffmanNode.cmp_spine_char]

theorem Weighted.cmp_swap (x y : Weighted α) :
    (Weighted.cmp x y).swap = Weighted.cmp y x := by
  rw [Weighted.cmp_key, Weighted.cmp_key, Ordering.swap_then,
    Ordering.swap_then, compare_swap', compare_swap', compare_swap']

theorem Weighted.cmp_refl (x : Weighted α) : Weighted.cmp x x = .eq := by
  rw [Weighted.cmp_key]
  simp [Ordering.then_eq_eq, compare_eq_iff_eq]

theorem Weighted.cmp_gt_iff (x y : Weighted α) :
    Weighted.cmp x y = .gt ↔ Weighted.cmp y x = .lt := by
  rw [← Weighted.cmp_swap y x]
  generalize Weighted.cmp y x = o
  cases o <;> simp [Ordering.swap]

theorem Weighted.cmp_eq_eq_iff (x y : Weighted α) :
    Weighted.cmp x y = .eq ↔
      x.weight = y.weight ∧ y.node.spine = x.node.spine ∧
        x.node.leftmost = y.node.leftmost := by
  rw [Weighted.cmp_key, Ordering.then_eq_eq, Ordering.then_eq_eq,
    compare_eq_iff_eq, compare_eq_iff_eq, compare_eq_iff_eq]

theorem then_ne_gt {o₁ o₂ : Ordering} :
    o₁.then o₂ ≠ .gt ↔ o₁ = .lt ∨ (o₁ = .eq ∧ o₂ ≠ .gt) := by
  cases o₁ <;> cases o₂ <;> decide

theorem Weighted.cmp_ne_gt_iff (x y : Weighted α) :
    Weighted.cmp x y ≠ .gt ↔
      x.weight < y.weight ∨ (x.weight = y.weight ∧
        (y.node.spine < x.node.spine ∨ (y.node.spine = x.node.spine ∧
          x.node.leftmost ≤ y.node.leftmost))) := by
  rw [Weighted.cmp_key]
  simp only [then_ne_gt, compare_lt_iff_lt, compare_eq_iff_eq,
    compare_le_iff_le]

theorem Weighted.cmp_le_trans {x y z : Weighted α}
    (h1 : Weighted.cmp x y ≠ .gt) (h2 : Weighted.cmp y z ≠ .gt) :
    Weighted.cmp x z ≠ .gt := by
  rw [Weighted.cmp_ne_gt_iff] at h1 h2 ⊢
  rcases h1 with h1 | ⟨e1, h1⟩ <;> rcases h2 with h2 | ⟨e2, h2⟩
  · left; omega
  · left; omega
  · left; omega
  · right
    refine ⟨by omega, ?_⟩
    rcases h1 with h1 | ⟨s1, l1⟩ <;> rcases h2 with h2 | ⟨s2, l2⟩
    · left; omega
    · left; omega
    · left; omega
    · right; exact ⟨by omega, le_trans l1 l2⟩

/-- Two weighted nodes whose leftmost leaf symbols differ never compare
equal; this is what makes every tie-break during construction decisive. -/
theorem Weighted.cmp_ne_eq_of_leftmost_ne {x y : Weighted α}
    (h : x.node.leftmost ≠ y.node.leftmost) : Weighted.cmp x y ≠ .eq := by
  intro hc
  rw [Weighted.cmp_eq_eq_iff] at hc
  tauto

theorem popMin_mem {l : List (Weighted α)} {x rest}
    (h : popMin l = some (x, rest)) : x ∈ l :=
  (popMin_perm h).symm.subset (List.mem_cons_self x rest)

theorem popMin_min {l : List (Weighted α)} {x rest}
    (h : popMin l = some (x, rest)) : ∀ y ∈ l, Weighted.cmp x y ≠ .gt := by
  induction l generalizing x rest with
  | nil => simp [popMin] at h
  | cons a as ih =>
    rcases h' : popMin as with _ | ⟨m, r⟩
    · obtain rfl := (popMin_eq_none_iff as).1 h'
      simp only [popMin, h'] at h
      simp only [Option.some.injEq, Prod.mk.injEq] at h
      obtain ⟨rfl, rfl⟩ := h
      intro y hy
      simp only [List.mem_singleton] at hy
      subst hy
      simp [Weighted.cmp_refl]
    · simp only [popMin, h'] at h
      split at h <;>
        simp only [Option.some.injEq, Prod.mk.injEq] at h <;>
        obtain ⟨rfl, rfl⟩ := h
      · rename_i hlt
        intro y hy
        rcases List.mem_cons.1 hy with rfl | hy
        · simp [hlt]
        · exact ih h' y hy
      · rename_i hnlt
        intro y hy
        rcases List.mem_cons.1 hy with rfl | hy
        · simp [Weighted.cmp_refl]
        · have ham : Weighted.cmp a m ≠ .gt := fun hc =>
            hnlt ((Weighted.cmp_gt_iff a m).1 hc)
          exact Weighted.cmp_le_trans ham (ih h' y hy)

theorem cmp_ne_eq_symm :
    Symmetric fun a b : Weighted α => Weighted.cmp a b ≠ .eq := by
  intro a b hab hc
  apply hab
  have := Weighted.cmp_swap b a
  rw [hc] at this
  exact this.symm

/-- When no two heap elements compare equal, the element removed by `popMin`
depends only on the bag, not on the list order: permuting the heap yields
the same minimum and a permuted remainder. -/
theorem popMin_eq_of_perm {l l' : List (Weighted α)} (hp : l.Perm l')
    (hne : l.Pairwise fun a b => Weighted.cmp a b ≠ .eq)
    {x rest} (h : popMin l = some (x, rest)) :
    ∃ rest', popMin l' = some (x, rest') ∧ rest.Perm rest' := by
  have hl'ne : l' ≠ [] := by
    intro e
    subst e
    rw [(popMin_eq_none_iff l).2 hp.eq_nil] at h
    exact Option.noConfusion h
  obtain ⟨⟨x', rest'⟩, h'⟩ : ∃ p, popMin l' = some p := by
    rcases e : popMin l' with _ | p
    · exact absurd ((popMin_eq_none_iff l').1 e) hl'ne
    · exact ⟨p, rfl⟩
  have h1 : Weighted.cmp x x' ≠ .gt :=
    popMin_min h x' (hp.symm.subset (popMin_mem h'))
  have h2 : Weighted.cmp x' x ≠ .gt :=
    popMin_min h' x (hp.subset (popMin_mem h))
  have heq : Weighted.cmp x x' = .eq := by
    rcases e : Weighted.cmp x x' with _ | _ | _
    · exact absurd ((Weighted.cmp_gt_iff x' x).2 e) h2
    · rfl
    · exact absurd e h1
  have hxx : x = x' := by
    by_contra hne'
    exact hne.forall cmp_ne_eq_symm (popMin_mem h)
      (hp.symm.subset (popMin_mem h')) hne' heq
  subst hxx
  refine ⟨rest', h', ?_⟩
  exact ((popMin_perm h).symm.trans (hp.trans (popMin_perm h'))).cons_inv

theorem mergeLoop_base {heap : List (Weighted α)}
    (h : ¬ 1 < heap.length) : mergeLoop heap = heap :=
  mergeN_base _ _ h

theorem mergeLoop_step {heap : List (Weighted α)} (hlen : 1 < heap.length)
    {lower rest greater rest2}
    (hpop1 : popMin heap = some (lower, rest))
    (hpop2 : popMin rest = some (greater, rest2)) :
    mergeLoop heap = mergeLoop (Weighted.new_branch greater lower :: rest2) := by
  have e1 := popMin_length hpop1
  have e2 := popMin_length hpop2
  unfold mergeLoop
  have hl : heap.length = (rest2.length + 1) + 1 := by
    simp only [List.length_cons] at *
    omega
  rw [hl, mergeN_succ, if_pos hlen]
  split
  · rename_i lower' rest' hp1
    rw [hpop1] at hp1
    injection hp1 with hp1
    injection hp1 with he1 he2
    subst he1
    subst he2
    split
    · rename_i greater' rest2' hp2
      rw [hpop2] at hp2
      injection hp2 with hp2
      injection hp2 with he1 he2
      subst he1
      subst he2
      rfl
    · rename_i hp2
      rw [hpop2] at hp2
      exact Option.noConfusion hp2
  · rename_i hp1
    rw [hpop1] at hp1
    exact Option.noConfusion hp1

theorem popMin_isSome {l : List (Weighted α)} (h : l ≠ []) :
    ∃ x rest, popMin l = some (x, rest) := by
  rcases e : popMin l with _ | ⟨x, rest⟩
  · exact absurd ((popMin_eq_none_iff l).1 e) h
  · exact ⟨x, rest, rfl⟩

theorem mergeLoop_length (heap : List (Weighted α)) (h : heap ≠ []) :
    (mergeLoop heap).length = 1 := by
  by_cases hlen : 1 < heap.length
  · obtain ⟨lower, rest, hp1⟩ := popMin_isSome h
    have hrest : rest ≠ [] := by
      have := popMin_length hp1
      intro e
      subst e
      simp only [List.length_nil] at this
      omega
    obtain ⟨greater, rest2, hp2⟩ := popMin_isSome hrest
    rw [mergeLoop_step hlen hp1 hp2]
    exact mergeLoop_length _ (by simp)
  · rw [mergeLoop_base hlen]
    have : heap.length ≠ 0 := fun e => h (List.length_eq_zero.1 e)
    omega
termination_by heap.length
decreasing_by
  have e1 := popMin_length hp1
  have e2 := popMin_length hp2
  simp only [List.length_cons]
  omega

theorem mergeLoop_shape (heap : List (Weighted α)) (h : 1 < heap.length) :
    ∃ g l, mergeLoop heap = [Weighted.new_branch g l] := by
  have hne : heap ≠ [] := by
    intro e
    subst e
    simp at h
  obtain ⟨lower, rest, hp1⟩ := popMin_isSome hne
  have hrest : rest ≠ [] := by
    have := popMin_length hp1
    intro e
    subst e
    simp only [List.length_nil] at this
    omega
  obtain ⟨greater, rest2, hp2⟩ := popMin_isSome hrest
  rw [mergeLoop_step h hp1 hp2]
  by_cases h2 : 1 < (Weighted.new_branch greater lower :: rest2).length
  · exact mergeLoop_shape _ h2
  · rw [mergeLoop_base h2]
    have : rest2 = [] := by
      simp only [List.length_cons] at h2
      exact List.length_eq_zero.1 (by omega)
    subst this
    exact ⟨greater, lower, rfl⟩
termination_by heap.length
decreasing_by
  have e1 := popMin_length hp1
  have e2 := popMin_length hp2
  simp only [List.length_cons]
  omega

theorem heapSymbols_perm {l1 l2 : List (Weighted α)} (h : l1.Perm l2) :
    (heapSymbols l1).Perm (heapSymbols l2) :=
  (h.map _).flatten

theorem mergeLoop_symbols (heap : List (Weighted α)) :
    (heapSymbols (mergeLoop heap)).Perm (heapSymbols heap) := by
  by_cases hlen : 1 < heap.length
  · have hne : heap ≠ [] := by
      intro e
      subst e
      simp at hlen
    obtain ⟨lower, rest, hp1⟩ := popMin_isSome hne
    have hrest : rest ≠ [] := by
      have := popMin_length hp1
      intro e
      subst e
      simp only [List.length_nil] at this
      omega
    obtain ⟨greater, rest2, hp2⟩ := popMin_isSome hrest
    rw [mergeLoop_step hlen hp1 hp2]
    refine (mergeLoop_symbols _).trans ?_
    have e1 : (heapSymbols heap).Perm (heapSymbols (lower :: rest)) :=
      heapSymbols_perm (popMin_perm hp1)
    have e2 : (heapSymbols rest).Perm (heapSymbols (greater :: rest2)) :=
      heapSymbols_perm (popMin_perm hp2)
    have e3 : heapSymbols (Weighted.new_branch greater lower :: rest2) =
        (greater.node.symbols ++ lower.node.symbols) ++ heapSymbols rest2 := by
      simp [heapSymbols, Weighted.new_branch, HuffmanNode.symbols]
    have e4 : heapSymbols (lower :: rest) =
        lower.node.symbols ++ heapSymbols rest := by
      simp [heapSymbols]
    have e5 : heapSymbols (greater :: rest2) =
        greater.node.symbols ++ heapSymbols rest2 := by
      simp [heapSymbols]
    rw [e3]
    rw [e5] at e2
    refine List.Perm.symm (e1.trans ?_)
    rw [e4]
    refine (List.Perm.append_left _ e2).trans ?_
    rw [← List.append_assoc]
    exact List.Perm.append_right _ List.perm_append_comm
  · rw [mergeLoop_base hlen]
termination_by heap.length
decreasing_by
  have e1 := popMin_length hp1
  have e2 := popMin_length hp2
  simp only [List.length_cons]
  omega

theorem leftmost_ne_symm :
    Symmetric fun a b : Weighted α => a.node.leftmost ≠ b.node.leftmost :=
  fun _ _ h => h.symm

/-- A heap whose elements have pairwise distinct leftmost leaf symbols is
reduced by the merge loop to the same multiset regardless of the order of
its elements: every pop is decisive. -/
theorem mergeLoop_congr (heap1 heap2 : List (Weighted α))
    (hp : heap1.Perm heap2)
    (hinv : heap1.Pairwise fun a b => a.node.leftmost ≠ b.node.leftmost) :
    (mergeLoop heap1).Perm (mergeLoop heap2) := by
  by_cases hlen : 1 < heap1.length
  · have hlen2 : 1 < heap2.length := by
      rw [← hp.length_eq]
      exact hlen
    have hne1 : heap1 ≠ [] := by
      intro e
      subst e
      simp at hlen
    obtain ⟨lower, rest, hp1⟩ := popMin_isSome hne1
    have hcmpne : heap1.Pairwise fun a b => Weighted.cmp a b ≠ .eq :=
      hinv.imp fun h => Weighted.cmp_ne_eq_of_leftmost_ne h
    obtain ⟨rest', hp1', hrperm⟩ := popMin_eq_of_perm hp hcmpne hp1
    have hrest_ne : rest ≠ [] := by
      have := popMin_length hp1
      intro e
      subst e
      simp only [List.length_nil] at this
      omega
    obtain ⟨greater, rest2, hp2⟩ := popMin_isSome hrest_ne
    have hinv_lr : (lower :: rest).Pairwise
        fun a b => a.node.leftmost ≠ b.node.leftmost :=
      ((popMin_perm hp1).pairwise_iff fun h => Ne.symm h).1 hinv
    have hinv_rest := hinv_lr.of_cons
    have hcmpne_rest : rest.Pairwise fun a b => Weighted.cmp a b ≠ .eq :=
      hinv_rest.imp fun h => Weighted.cmp_ne_eq_of_leftmost_ne h
    obtain ⟨rest2', hp2', hr2perm⟩ := popMin_eq_of_perm hrperm hcmpne_rest hp2
    rw [mergeLoop_step hlen hp1 hp2, mergeLoop_step hlen2 hp1' hp2']
    have hinv_g : (greater :: rest2).Pairwise
        fun a b => a.node.leftmost ≠ b.node.leftmost :=
      ((popMin_perm hp2).pairwise_iff fun h => Ne.symm h).1 hinv_rest
    refine mergeLoop_congr _ _ (hr2perm.cons _) ?_
    refine List.Pairwise.cons ?_ hinv_g.of_cons
    intro y hy
    exact (List.pairwise_cons.1 hinv_g).1 y hy
  · have hlen2 : ¬ 1 < heap2.length := by
      rw [← hp.length_eq]
      exact hlen
    rw [mergeLoop_base hlen, mergeLoop_base hlen2]
    exact hp
termination_by heap1.length
decreasing_by
  have e1 := popMin_length hp1
  have e2 := popMin_length hp2
  simp only [List.length_cons]
  omega

/-- The leftmost-distinctness invariant of the initial heap built from a
frequency table with no duplicate keys. -/
theorem initial_heap_inv {table : List (α × Nat)}
    (h : (table.map Prod.fst).Nodup) :
    (table.map fun p => Weighted.new_leaf p.1 p.2).Pairwise
      fun a b => a.node.leftmost ≠ b.node.leftmost := by
  rw [List.pairwise_map]
  rw [List.Nodup, List.pairwise_map] at h
  exact h.imp fun hne => hne

theorem initial_heap_symbols (table : List (α × Nat)) :
    heapSymbols (table.map fun p => Weighted.new_leaf p.1 p.2) =
      table.map Prod.fst := by
  induction table with
  | nil => rfl
  | cons p t ih =>
    simp only [heapSymbols, List.map_cons, List.flatten_cons] at *
    rw [ih]
    rfl

theorem into_huffman_tree_eq_none_iff (table : List (α × Nat)) :
    into_huffman_tree table = none ↔ table = [] := by
  unfold into_huffman_tree
  by_cases h : table.length = 0
  · simp [h, List.length_eq_zero.1 h]
  · simp only [if_neg h]
    have hne : (table.map fun p => Weighted.new_leaf p.1 p.2) ≠ [] := by
      intro e
      apply h
      simpa using congrArg List.length e
    have hml : mergeLoop (table.map fun p => Weighted.new_leaf p.1 p.2) ≠ [] := by
      have hl := mergeLoop_length _ hne
      intro e
      rw [e] at hl
      simp at hl
    obtain ⟨w, rest, hw⟩ := popMin_isSome hml
    rw [hw]
    simp only [Option.some.injEq]
    constructor
    · intro e
      exact absurd e (by simp)
    · intro e
      subst e
      simp at h

theorem into_huffman_tree_singleton (s : α) (c : Nat) :
    into_huffman_tree [(s, c)] = some (.leaf s) := by
  unfold into_huffman_tree
  rw [if_neg (by simp)]
  rw [mergeLoop_base (by simp)]
  simp [popMin, Weighted.new_leaf]

theorem into_huffman_tree_symbols {table : List (α × Nat)} {t : HuffmanNode α}
    (ht : into_huffman_tree table = some t) :
    t.symbols.Perm (table.map Prod.fst) := by
  unfold into_huffman_tree at ht
  by_cases h : table.length = 0
  · simp [h] at ht
  · simp only [if_neg h] at ht
    have hne : (table.map fun p => Weighted.new_leaf p.1 p.2) ≠ [] := by
      intro e
      apply h
      simpa using congrArg List.length e
    have hl := mergeLoop_length _ hne
    obtain ⟨w, hml⟩ :=
      List.length_eq_one.1 hl
    rw [hml] at ht
    have hpm : popMin [w] = some (w, []) := by simp [popMin]
    rw [hpm] at ht
    injection ht with ht
    subst ht
    have hsym := mergeLoop_symbols (table.map fun p => Weighted.new_leaf p.1 p.2)
    rw [hml, initial_heap_symbols] at hsym
    simpa [heapSymbols] using hsym

theorem into_huffman_tree_branch {table : List (α × Nat)} {t : HuffmanNode α}
    (hlen : 2 ≤ table.length) (ht : into_huffman_tree table = some t) :
    ∃ l r, t = HuffmanNode.branch l r := by
  unfold into_huffman_tree at ht
  rw [if_neg (by omega)] at ht
  have hlen2 : 1 < (table.map fun p => Weighted.new_leaf p.1 p.2).length := by
    simp only [List.length_map]
    omega
  obtain ⟨g, l, hml⟩ := mergeLoop_shape _ hlen2
  rw [hml] at ht
  have hpm : popMin [Weighted.new_branch g l] =
      some (Weighted.new_branch g l, []) := by simp [popMin]
  rw [hpm] at ht
  injection ht with ht
  exact ⟨g.node, l.node, ht.symm⟩

/-- Determinism of the builder: permuted tables with distinct keys produce
the same tree. -/
theorem into_huffman_tree_perm {t1 t2 : List (α × Nat)}
    (hp : t1.Perm t2) (hnd : (t1.map Prod.fst).Nodup) :
    into_huffman_tree t1 = into_huffman_tree t2 := by
  unfold into_huffman_tree
  by_cases h : t1.length = 0
  · have h2 : t2.length = 0 := by
      rw [← hp.length_eq]
      exact h
    simp [h, h2]
  · have h2 : ¬ t2.length = 0 := by
      rw [← hp.length_eq]
      exact h
    simp only [if_neg h, if_neg h2]
    have hperm : (t1.map fun p => Weighted.new_leaf p.1 p.2).Perm
        (t2.map fun p => Weighted.new_leaf p.1 p.2) := hp.map _
    have hcong := mergeLoop_congr _ _ hperm (initial_heap_inv hnd)
    have hne1 : (t1.map fun p => Weighted.new_leaf p.1 p.2) ≠ [] := by
      intro e
      apply h
      simpa using congrArg List.length e
    have hne2 : (t2.map fun p => Weighted.new_leaf p.1 p.2) ≠ [] := by
      intro e
      apply h2
      simpa using congrArg List.length e
    obtain ⟨w1, e1⟩ := List.length_eq_one.1 (mergeLoop_length _ hne1)
    obtain ⟨w2, e2⟩ := List.length_eq_one.1 (mergeLoop_length _ hne2)
    rw [e1, e2] at hcong
    obtain rfl : w1 = w2 := by
      have := List.perm_singleton.1 hcong
      injection this
    rw [e1, e2]

theorem leafCodes_eq_codesOf (t : HuffmanNode α) (pre : List Bool) :
    leafCodes t pre = (codesOf t).map fun p => (p.1, pre ++ p.2) := by
  induction t generalizing pre with
  | leaf s => simp [leafCodes, codesOf]
  | branch l r ihl ihr =>
    simp only [leafCodes, codesOf, ihl, ihr, List.map_append, List.map_map]
    congr 1 <;> {
      apply List.map_congr_left
      intro p _
      simp [Function.comp]
    }

theorem codesOf_keys (t : HuffmanNode α) :
    (codesOf t).map Prod.fst = t.symbols := by
  induction t with
  | leaf s => simp [codesOf, HuffmanNode.symbols]
  | branch l r ihl ihr =>
    simp only [codesOf, HuffmanNode.symbols, List.map_append, List.map_map]
    rw [← ihl, ← ihr]
    congr 1

theorem leafCodes_keys (t : HuffmanNode α) (pre : List Bool) :
    (leafCodes t pre).map Prod.fst = t.symbols := by
  rw [leafCodes_eq_codesOf, List.map_map]
  rw [← codesOf_keys t]
  congr 1

/-- When the leaf symbols of the tree are distinct and none of them is
already a key of the accumulator, `visit_tree` prepends (in reverse
traversal order) exactly the symbol/path pairs described by the spec. -/
theorem visit_tree_spec (t : HuffmanNode α) (pre : List Bool)
    (m : List (α × List Bool)) (hnd : t.symbols.Nodup)
    (hdis : ∀ s ∈ t.symbols, ∀ e ∈ m, e.1 ≠ s) :
    visit_tree t pre m = (leafCodes t pre).reverse ++ m := by
  induction t generalizing pre m with
  | leaf s =>
    have hnot : ¬ m.any fun p => p.1 = s := by
      simp only [List.any_eq_true, not_exists]
      intro e
      simp only [decide_eq_true_eq, not_and]
      intro he
      exact hdis s (by simp [HuffmanNode.symbols]) e he
    simp [visit_tree, mapInsert, hnot, leafCodes]
  | branch l r ihl ihr =>
    simp only [HuffmanNode.symbols, List.nodup_append] at hnd
    obtain ⟨hndl, hndr, hdisj⟩ := hnd
    have hsubl : ∀ s ∈ l.symbols, ∀ e ∈ m, e.1 ≠ s := fun s hs =>
      hdis s (by simp [HuffmanNode.symbols, hs])
    have el := ihl (pre ++ [false]) m hndl hsubl
    have er := ihr (pre ++ [true]) ((leafCodes l (pre ++ [false])).reverse ++ m)
      hndr ?_
    · simp only [visit_tree, el, er, leafCodes, List.reverse_append,
        List.append_assoc]
    · intro s hs e he
      rcases List.mem_append.1 he with he | he
      · have : e.1 ∈ l.symbols := by
          rw [← leafCodes_keys l (pre ++ [false])]
          exact List.mem_map_of_mem Prod.fst (List.mem_reverse.1 he)
        intro hc
        subst hc
        exact hdisj this hs
      · exact hdis s (by simp [HuffmanNode.symbols, hs]) e he

theorem from_tree_eq {t : HuffmanNode α} (hnd : t.symbols.Nodup) :
    from_tree t = (codesOf t).reverse := by
  rw [from_tree, visit_tree_spec t [] [] hnd (by simp), leafCodes_eq_codesOf]
  simp

theorem mapGet_eq_some_iff {m : List (α × List Bool)}
    (hnd : (m.map Prod.fst).Nodup) (s : α) (c : List Bool) :
    mapGet m s = some c ↔ (s, c) ∈ m := by
  induction m with
  | nil => simp [mapGet]
  | cons e m ih =>
    obtain ⟨a, b⟩ := e
    simp only [List.map_cons, List.nodup_cons] at hnd
    obtain ⟨hka, hnd'⟩ := hnd
    by_cases has : a = s
    · subst has
      have hg : mapGet ((a, b) :: m) a = some b := by simp [mapGet]
      rw [hg]
      constructor
      · intro hb
        injection hb with hb
        subst hb
        exact List.mem_cons_self _ _
      · intro hmem
        rcases List.mem_cons.1 hmem with he | hmem
        · injection he with h1 h2
          subst h2
          rfl
        · exact absurd (List.mem_map_of_mem Prod.fst hmem) (by simpa using hka)
    · simp only [mapGet, if_neg has, ih hnd', List.mem_cons, Prod.mk.injEq]
      constructor
      · exact Or.inr
      · rintro (⟨rfl, rfl⟩ | hmem)
        · exact absurd rfl has
        · exact hmem

theorem mapGet_from_tree {t : HuffmanNode α} (hnd : t.symbols.Nodup)
    (s : α) (c : List Bool) :
    mapGet (from_tree t) s = some c ↔ (s, c) ∈ codesOf t := by
  rw [from_tree_eq hnd]
  have hk : ((codesOf t).reverse.map Prod.fst).Nodup := by
    rw [List.map_reverse, List.nodup_reverse, codesOf_keys]
    exact hnd
  rw [mapGet_eq_some_iff hk]
  exact List.mem_reverse

/-- Codewords of distinct symbols in a tree are never prefixes of one
another: the paths to two different leaves diverge at some branch. -/
theorem codesOf_prefix_free (t : HuffmanNode α) :
    ∀ p1 ∈ codesOf t, ∀ p2 ∈ codesOf t, p1.1 ≠ p2.1 → ¬ p1.2 <+: p2.2 := by
  induction t with
  | leaf s =>
    intro p1 h1 p2 h2 hne
    simp only [codesOf, List.mem_singleton] at h1 h2
    subst h1
    subst h2
    exact absurd rfl hne
  | branch l r ihl ihr =>
    intro p1 h1 p2 h2 hne hpre
    simp only [codesOf, List.mem_append, List.mem_map] at h1 h2
    rcases h1 with ⟨q1, hq1, rfl⟩ | ⟨q1, hq1, rfl⟩ <;>
      rcases h2 with ⟨q2, hq2, rfl⟩ | ⟨q2, hq2, rfl⟩
    · exact ihl q1 hq1 q2 hq2 hne (List.cons_prefix_cons.1 hpre).2
    · have := (List.cons_prefix_cons.1 hpre).1
      simp at this
    · have := (List.cons_prefix_cons.1 hpre).1
      simp at this
    · exact ihr q1 hq1 q2 hq2 hne (List.cons_prefix_cons.1 hpre).2

theorem encodeGo_ok (symbols : List (α × List Bool)) (stream : List α)
    (h : ∀ s ∈ stream, (mapGet symbols s).isSome) (acc : List Bool) :
    encodeGo symbols acc stream = .ok (acc ++ codebits symbols stream) := by
  induction stream generalizing acc with
  | nil => simp [encodeGo, codebits]
  | cons s rest ih =>
    obtain ⟨c, hc⟩ := Option.isSome_iff_exists.1 (h s (List.mem_cons_self _ _))
    simp only [encodeGo, hc]
    rw [ih (fun x hx => h x (List.mem_cons_of_mem _ hx)) (acc ++ c)]
    simp [codebits, hc, List.append_assoc]

theorem encode_ok (symbols : List (α × List Bool)) (stream : List α)
    (h : ∀ s ∈ stream, (mapGet symbols s).isSome) :
    encode symbols stream = .ok (codebits symbols stream) := by
  rw [encode, encodeGo_ok symbols stream h []]
  simp

theorem encodeGo_err (symbols : List (α × List Bool)) (pre : List α) (s : α)
    (post : List α) (hpre : ∀ x ∈ pre, (mapGet symbols x).isSome)
    (hs : mapGet symbols s = none) (acc : List Bool) :
    encodeGo symbols acc (pre ++ s :: post) = .error s := by
  induction pre generalizing acc with
  | nil => simp [encodeGo, hs]
  | cons x rest ih =>
    obtain ⟨c, hc⟩ := Option.isSome_iff_exists.1
      (hpre x (List.mem_cons_self _ _))
    simp only [List.cons_append, encodeGo, hc]
    exact ih (fun y hy => hpre y (List.mem_cons_of_mem _ hy)) (acc ++ c)

theorem decode_single_code {t : HuffmanNode α} {s : α} {c : List Bool}
    (h : (s, c) ∈ codesOf t) (pre post : List Bool) :
    decode_single_symbol (pre ++ c ++ post) t pre.length =
      some (s, pre.length + c.length) := by
  induction t generalizing pre c with
  | leaf s' =>
    simp only [codesOf, List.mem_singleton] at h
    injection h with h1 h2
    subst h1
    subst h2
    simp [decode_single_symbol]
  | branch l r ihl ihr =>
    simp only [codesOf, List.mem_append, List.mem_map] at h
    rcases h with ⟨q, hq, he⟩ | ⟨q, hq, he⟩
    · injection he with h1 h2
      subst h1
      subst h2
      have hget : (pre ++ (false :: q.2) ++ post).get? pre.length =
          some false := by
        rw [List.append_assoc, List.get?_eq_getElem?,
          List.getElem?_append_right (le_refl _)]
        simp
      have hbuf : pre ++ (false :: q.2) ++ post =
          (pre ++ [false]) ++ q.2 ++ post := by
        simp
      simp only [decode_single_symbol, hget]
      rw [hbuf]
      have hlen : pre.length + 1 = (pre ++ [false]).length := by simp
      rw [hlen, ihl hq]
      simp only [List.length_append, List.length_cons, List.length_nil]
      congr 2
      omega
    · injection he with h1 h2
      subst h1
      subst h2
      have hget : (pre ++ (true :: q.2) ++ post).get? pre.length =
          some true := by
        rw [List.append_assoc, List.get?_eq_getElem?,
          List.getElem?_append_right (le_refl _)]
        simp
      have hbuf : pre ++ (true :: q.2) ++ post =
          (pre ++ [true]) ++ q.2 ++ post := by
        simp
      simp only [decode_single_symbol, hget]
      rw [hbuf]
      have hlen : pre.length + 1 = (pre ++ [true]).length := by simp
      rw [hlen, ihr hq]
      simp only [List.length_append, List.length_cons, List.length_nil]
      congr 2
      omega

theorem decodeLoop_succ (buffer : List Bool) (root : HuffmanNode α)
    (fuel pos : Nat) (result : List α) :
    decodeLoop buffer root (fuel + 1) pos result =
      if pos < buffer.length then
        match decode_single_symbol buffer root pos with
        | none => some none
        | some (s, pos') => decodeLoop buffer root fuel pos' (result ++ [s])
      else some (some (result, pos)) := rfl

/-- Decoding a buffer that continues with the concatenated codewords of a
stream (all defined in the codeword map and drawn from the tree) appends
exactly that stream to the accumulator and stops at the end of the
buffer. -/
theorem decodeLoop_ok (l0 r0 : HuffmanNode α)
    (symbols : List (α × List Bool)) (stream : List α)
    (hall : ∀ s ∈ stream, ∃ c, mapGet symbols s = some c ∧
      (s, c) ∈ codesOf (HuffmanNode.branch l0 r0))
    (pre : List Bool) (acc : List α) :
    decodeLoop (pre ++ codebits symbols stream) (HuffmanNode.branch l0 r0)
      (stream.length + 1) pre.length acc =
      some (some (acc ++ stream,
        pre.length + (codebits symbols stream).length)) := by
  induction stream generalizing pre acc with
  | nil => simp [codebits, decodeLoop]
  | cons s rest ih =>
    obtain ⟨c, hc, hmem⟩ := hall s (List.mem_cons_self _ _)
    have hcne : c ≠ [] := by
      have hmem' := hmem
      simp only [codesOf, List.mem_append, List.mem_map] at hmem'
      rcases hmem' with ⟨q, _, he⟩ | ⟨q, _, he⟩ <;>
        · injection he with h1 h2
          rw [← h2]
          simp
    have hbuf : pre ++ codebits symbols (s :: rest) =
        pre ++ c ++ codebits symbols rest := by
      simp [codebits, hc, List.append_assoc]
    rw [hbuf]
    have hlt : pre.length < (pre ++ c ++ codebits symbols rest).length := by
      rcases c with _ | ⟨b, c'⟩
      · exact absurd rfl hcne
      · simp only [List.length_append, List.length_cons]
        omega
    rw [show (s :: rest).length + 1 = rest.length + 1 + 1 by simp]
    rw [decodeLoop_succ]
    rw [if_pos hlt, decode_single_code hmem pre (codebits symbols rest)]
    have ihr := ih (fun x hx => hall x (List.mem_cons_of_mem _ hx))
      (pre ++ c) (acc ++ [s])
    rw [List.length_append] at ihr
    have goal_eq : (some (some (acc ++ [s] ++ rest,
        pre.length + c.length + (codebits symbols rest).length)) :
          Option (Option (List α × Nat))) =
        some (some (acc ++ s :: rest,
          pre.length + (codebits symbols (s :: rest)).length)) := by
      simp only [Option.some.injEq, Prod.mk.injEq]
      constructor
      · simp
      · simp only [codebits, List.map_cons, List.flatten_cons, hc,
          Option.getD_some, List.length_append]
        omega
    rw [goal_eq] at ihr
    exact ihr

theorem decodeLoop_fuel_mono {buffer : List Bool} {t : HuffmanNode α}
    {fuel pos acc o} (h : decodeLoop buffer t fuel pos acc = some o) :
    decodeLoop buffer t (fuel + 1) pos acc = some o := by
  induction fuel generalizing pos acc o with
  | zero => exact Option.noConfusion h
  | succ n ih =>
    rw [decodeLoop_succ] at h
    rw [decodeLoop_succ]
    by_cases hlt : pos < buffer.length
    · rw [if_pos hlt] at h ⊢
      rcases e : decode_single_symbol buffer t pos with _ | ⟨s2, pos2⟩
      · rw [e] at h
        exact h
      · rw [e] at h
        exact ih h
    · rw [if_neg hlt] at h ⊢
      exact h

theorem decodeLoop_fuel_le {buffer : List Bool} {t : HuffmanNode α}
    {fuel fuel' pos acc o} (hle : fuel ≤ fuel')
    (h : decodeLoop buffer t fuel pos acc = some o) :
    decodeLoop buffer t fuel' pos acc = some o := by
  induction hle with
  | refl => exact h
  | step _ ih => exact decodeLoop_fuel_mono ih

/-- The cursor never moves backwards and, except for the degenerate case of
an immediate leaf, a successful symbol decode strictly advances it and stays
within the buffer. -/
theorem decode_single_bounds {buffer : List Bool} {t : HuffmanNode α} :
    ∀ {pos s pos'}, decode_single_symbol buffer t pos = some (s, pos') →
      pos ≤ pos' ∧ (pos' = pos ∨ pos' ≤ buffer.length) ∧
        (∀ a b, t = HuffmanNode.branch a b → pos < pos') := by
  induction t with
  | leaf s0 =>
    intro pos s pos' h
    simp only [decode_single_symbol, Option.some.injEq, Prod.mk.injEq] at h
    refine ⟨by omega, Or.inl h.2.symm, ?_⟩
    intro a b hab
    exact HuffmanNode.noConfusion hab
  | branch l r ihl ihr =>
    intro pos s pos' h
    simp only [decode_single_symbol] at h
    rcases e : buffer.get? pos with _ | b
    · rw [e] at h
      exact absurd h (by simp)
    · rw [e] at h
      have hlt : pos < buffer.length := by
        have hno : ¬ buffer.length ≤ pos := fun hle => by
          rw [List.get?_eq_getElem?, List.getElem?_eq_none hle] at e
          exact Option.noConfusion e
        omega
      cases b
      · obtain ⟨h1, h2, _⟩ := ihl h
        refine ⟨by omega, Or.inr ?_, fun a b _ => by omega⟩
        rcases h2 with h2 | h2
        · omega
        · exact h2
      · obtain ⟨h1, h2, _⟩ := ihr h
        refine ⟨by omega, Or.inr ?_, fun a b _ => by omega⟩
        rcases h2 with h2 | h2
        · omega
        · exact h2

/-- Normal loop exit happens exactly when the cursor equals the buffer
length: the decoder consumes every bit and none beyond. -/
theorem decodeLoop_final_pos {buffer : List Bool} {t : HuffmanNode α} :
    ∀ {fuel pos acc r p}, pos ≤ buffer.length →
      decodeLoop buffer t fuel pos acc = some (some (r, p)) →
      p = buffer.length := by
  intro fuel
  induction fuel with
  | zero =>
    intro pos acc r p _ h
    exact Option.noConfusion h
  | succ n ih =>
    intro pos acc r p hpos h
    rw [decodeLoop_succ] at h
    by_cases hlt : pos < buffer.length
    · rw [if_pos hlt] at h
      rcases e : decode_single_symbol buffer t pos with _ | ⟨s2, pos2⟩
      · rw [e] at h
        exact Option.noConfusion (Option.some.inj h)
      · rw [e] at h
        obtain ⟨h1, h2, _⟩ := decode_single_bounds e
        have hpos2 : pos2 ≤ buffer.length := by
          rcases h2 with h2 | h2 <;> omega
        exact ih hpos2 h
    · rw [if_neg hlt] at h
      simp only [Option.some.injEq, Prod.mk.injEq] at h
      omega

/-- On a branch-rooted tree the decode loop always yields a verdict
(completion or an index panic) within `buffer.length + 1 - pos` steps:
every iteration strictly advances the cursor. -/
theorem decodeLoop_branch_some (l0 r0 : HuffmanNode α) (buffer : List Bool)
    (pos : Nat) (acc : List α) (hpos : pos ≤ buffer.length) :
    ∃ o, decodeLoop buffer (HuffmanNode.branch l0 r0)
      (buffer.length + 1 - pos) pos acc = some o := by
  have hfuel : buffer.length + 1 - pos = (buffer.length - pos) + 1 := by omega
  rw [hfuel]
  by_cases hlt : pos < buffer.length
  · rw [decodeLoop_succ]
    rw [if_pos hlt]
    rcases e : decode_single_symbol buffer (HuffmanNode.branch l0 r0) pos
      with _ | ⟨s, pos'⟩
    · exact ⟨none, rfl⟩
    · obtain ⟨h1, h2, h3⟩ := decode_single_bounds e
      have hstrict : pos < pos' := h3 l0 r0 rfl
      have hpos' : pos' ≤ buffer.length := by
        rcases h2 with h2 | h2 <;> omega
      obtain ⟨o, ho⟩ := decodeLoop_branch_some l0 r0 buffer pos'
        (acc ++ [s]) hpos'
      exact ⟨o, decodeLoop_fuel_le (by omega) ho⟩
  · rw [decodeLoop_succ]
    rw [if_neg hlt]
    exact ⟨some (acc, pos), rfl⟩
termination_by buffer.length - pos
decreasing_by omega

/-- With a single-Leaf tree and a nonempty buffer the cursor never
advances: the loop runs out of any amount of fuel, the model of the
infinite loop. -/
theorem decodeLoop_leaf_none (s0 : α) (buffer : List Bool) :
    ∀ fuel pos acc, pos < buffer.length →
      decodeLoop buffer (HuffmanNode.leaf s0) fuel pos acc = none := by
  intro fuel
  induction fuel with
  | zero =>
    intro pos acc _
    rfl
  | succ n ih =>
    intro pos acc hlt
    rw [decodeLoop_succ]
    rw [if_pos hlt]
    exact ih pos (acc ++ [s0]) hlt

theorem spec_tie_break_eq_cmp (x y : HuffmanNode α) :
    spec_tie_break x y = HuffmanNode.cmp x y := by
  induction x generalizing y with
  | leaf a => cases y <;> rfl
  | branch l r ihl ihr =>
    cases y with
    | leaf b => rfl
    | branch l2 r2 =>
      simp only [spec_tie_break, HuffmanNode.cmp]
      exact ihl l2

theorem leafCodes_nil (t : HuffmanNode α) : leafCodes t [] = codesOf t := by
  rw [leafCodes_eq_codesOf]
  conv_rhs => rw [← List.map_id (codesOf t)]
  apply List.map_congr_left
  intro p _
  simp

theorem codes_exist {t : HuffmanNode α} (hnd : t.symbols.Nodup) {s : α}
    (hs : s ∈ t.symbols) :
    ∃ c, mapGet (from_tree t) s = some c ∧ (s, c) ∈ codesOf t := by
  have hmem : s ∈ (codesOf t).map Prod.fst := by
    rw [codesOf_keys]
    exact hs
  obtain ⟨p, hp, he⟩ := List.mem_map.1 hmem
  have hsp : (s, p.2) = p := by
    rw [← he]
  refine ⟨p.2, (mapGet_from_tree hnd s p.2).2 ?_, ?_⟩
  · rw [hsp]
    exact hp
  · rw [hsp]
    exact hp

/-- C1: for every finite, non-empty sequence of symbols drawn from an
alphabet of size at least 2, building the tree from that alphabet's
frequency table, encoding the sequence with the derived codeword map, and
decoding the resulting bit sequence (whose length is the exact encoded bit
count) with a decoder over the same tree returns exactly the original
sequence. -/
theorem claim_round_trip (table : List (α × Nat)) (t : HuffmanNode α)
    (hnd : (table.map Prod.fst).Nodup) (hlen : 2 ≤ table.length)
    (ht : into_huffman_tree table = some t) (stream : List α)
    (hne : stream ≠ [])
    (hcov : ∀ s ∈ stream, s ∈ table.map Prod.fst) :
    ∃ bits : List Bool,
      encode (from_tree t) stream = Except.ok bits ∧
      decode_unbounded t bits (stream.length + 1) = some (some stream) := by
  have hsym := into_huffman_tree_symbols ht
  have hndsym : t.symbols.Nodup := hsym.nodup_iff.2 hnd
  obtain ⟨l0, r0, rfl⟩ := into_huffman_tree_branch hlen ht
  have hall : ∀ s ∈ stream,
      ∃ c, mapGet (from_tree (HuffmanNode.branch l0 r0)) s = some c ∧
        (s, c) ∈ codesOf (HuffmanNode.branch l0 r0) := by
    intro s hs
    exact codes_exist hndsym (hsym.mem_iff.2 (hcov s hs))
  refine ⟨codebits (from_tree (HuffmanNode.branch l0 r0)) stream, ?_, ?_⟩
  · refine encode_ok _ stream ?_
    intro s hs
    obtain ⟨c, hc, _⟩ := hall s hs
    rw [hc]
    rfl
  · have hdec := decodeLoop_ok l0 r0 (from_tree (HuffmanNode.branch l0 r0))
      stream hall [] []
    simp only [List.nil_append, List.length_nil] at hdec
    unfold decode_unbounded
    rw [hdec]
    rfl

theorem claim_round_trip_witness :
    ∃ bits : List Bool,
      encode (from_tree (HuffmanNode.branch (HuffmanNode.leaf 1)
        (HuffmanNode.leaf 0))) [0, 1, 0] = Except.ok bits ∧
      decode_unbounded (HuffmanNode.branch (HuffmanNode.leaf 1)
        (HuffmanNode.leaf 0)) bits 4 = some (some [0, 1, 0]) :=
  claim_round_trip [(0, 1), (1, 1)]
    (HuffmanNode.branch (HuffmanNode.leaf 1) (HuffmanNode.leaf 0))
    (by decide) (by decide) (by decide) [0, 1, 0] (by decide) (by decide)

/-- C2: the total order used to pick the two merged nodes is exactly the
spec's: weight ascending; on a tie a Branch is strictly smaller than a
Leaf, two Leaves compare by the Symbol order, two Branches compare
recursively by their first children (which carry no weight, so only the
structural rules apply below the top level). -/
theorem claim_merge_order (x y : Weighted α) :
    Weighted.cmp x y = spec_order x y := by
  rw [Weighted.cmp_char]
  unfold spec_order
  rw [spec_tie_break_eq_cmp]
  generalize compare x.weight y.weight = o
  cases o <;> rfl

/-- C3: for branch-rooted builder trees (any table with at least two
entries) the decode loop always reaches a verdict within
`buffer.length + 1` iterations, and a normal exit happens exactly when the
cursor equals the buffer's bit count; with a single-Leaf tree and a
nonempty buffer the cursor never advances and the loop exhausts any fuel:
the single-symbol alphabet case hangs. -/
theorem claim_decode_termination (table : List (α × Nat))
    (t : HuffmanNode α) (hlen : 2 ≤ table.length)
    (ht : into_huffman_tree table = some t) :
    (∀ buffer : List Bool,
      ∃ o, decodeLoop buffer t (buffer.length + 1) 0 [] = some o) ∧
    (∀ (buffer : List Bool) (fuel : Nat) (r : List α) (p : Nat),
      decodeLoop buffer t fuel 0 [] = some (some (r, p)) →
      p = buffer.length) ∧
    (∀ (s : α) (buffer : List Bool), buffer ≠ [] → ∀ fuel : Nat,
      decodeLoop buffer (HuffmanNode.leaf s) fuel 0 [] = none) := by
  obtain ⟨l0, r0, rfl⟩ := into_huffman_tree_branch hlen ht
  refine ⟨?_, ?_, ?_⟩
  · intro buffer
    have h := decodeLoop_branch_some l0 r0 buffer 0 [] (Nat.zero_le _)
    simpa using h
  · intro buffer fuel r p h
    exact decodeLoop_final_pos (Nat.zero_le _) h
  · intro s buffer hne fuel
    exact decodeLoop_leaf_none s buffer fuel 0 [] (List.length_pos.2 hne)

theorem claim_decode_termination_witness :
    (∃ o, decodeLoop [true, false]
      (HuffmanNode.branch (HuffmanNode.leaf 1) (HuffmanNode.leaf 0))
      3 0 [] = some o) ∧
    decodeLoop [true] (HuffmanNode.leaf (5 : Nat)) 7 0 [] = none := by
  have h := claim_decode_termination [(0, 1), (1, 1)]
    (HuffmanNode.branch (HuffmanNode.leaf 1) (HuffmanNode.leaf 0))
    (by decide) (by decide)
  exact ⟨h.1 [true, false], h.2.2 5 [true] (by decide) 7⟩

/-- C4: the codeword map derived from any builder tree is a prefix code:
the codewords of two distinct symbols are never prefixes of one another
(in particular no proper prefixes). -/
theorem claim_prefix_code (table : List (α × Nat))
    (hnd : (table.map Prod.fst).Nodup) (t : HuffmanNode α)
    (ht : into_huffman_tree table = some t) (s1 s2 : α)
    (c1 c2 : List Bool) (h1 : mapGet (from_tree t) s1 = some c1)
    (h2 : mapGet (from_tree t) s2 = some c2) (hne : s1 ≠ s2) :
    ¬ c1 <+: c2 := by
  have hndsym : t.symbols.Nodup :=
    (into_huffman_tree_symbols ht).nodup_iff.2 hnd
  exact codesOf_prefix_free t (s1, c1) ((mapGet_from_tree hndsym s1 c1).1 h1)
    (s2, c2) ((mapGet_from_tree hndsym s2 c2).1 h2) hne

theorem claim_prefix_code_witness : ¬ [true] <+: [false] :=
  claim_prefix_code [(0, 1), (1, 1)] (by decide)
    (HuffmanNode.branch (HuffmanNode.leaf 1) (HuffmanNode.leaf 0))
    (by decide) 0 1 [true] [false] (by decide) (by decide) (by decide)

/-- C5: tree construction returns no tree exactly when the table is empty,
returns a single Leaf of the unique symbol for a one-entry table, and has
no other failure mode: every nonempty table yields a tree. -/
theorem claim_builder_result_shape (table : List (α × Nat)) :
    (into_huffman_tree table = none ↔ table = []) ∧
    (∀ (s : α) (c : Nat),
      into_huffman_tree [(s, c)] = some (HuffmanNode.leaf s)) ∧
    (table ≠ [] → ∃ t, into_huffman_tree table = some t) := by
  refine ⟨into_huffman_tree_eq_none_iff table,
    fun s c => into_huffman_tree_singleton s c, fun h => ?_⟩
  rcases e : into_huffman_tree table with _ | t
  · exact absurd ((into_huffman_tree_eq_none_iff table).1 e) h
  · exact ⟨t, rfl⟩

theorem claim_builder_result_shape_witness :
    into_huffman_tree ([] : List (Nat × Nat)) = none ∧
    into_huffman_tree [((7 : Nat), 3)] = some (HuffmanNode.leaf 7) ∧
    (∃ t, into_huffman_tree [((0 : Nat), 1), (1, 2)] = some t) := by
  refine ⟨?_, ?_, ?_⟩
  · exact (claim_builder_result_shape ([] : List (Nat × Nat))).1.2 rfl
  · exact (claim_builder_result_shape ([] : List (Nat × Nat))).2.1 7 3
  · exact (claim_builder_result_shape [((0 : Nat), 1), (1, 2)]).2.2
      (by decide)

/-- C6: codeword derivation is the single pre-order traversal the spec
describes — `false` into the first child, `true` into the second, the
accumulated prefix recorded at each leaf (`leafCodes` is that traversal
verbatim) — and for a tree with distinct leaf symbols the resulting map
has exactly one entry per distinct symbol; a single-Leaf tree gets the
empty codeword. -/
theorem claim_codeword_derivation (t : HuffmanNode α)
    (hnd : t.symbols.Nodup) :
    (∀ (s : α) (c : List Bool),
      mapGet (from_tree t) s = some c ↔ (s, c) ∈ leafCodes t []) ∧
    ((from_tree t).map Prod.fst).Nodup ∧
    ((from_tree t).map Prod.fst).Perm t.symbols ∧
    (∀ s : α, from_tree (HuffmanNode.leaf s) = [(s, [])]) := by
  have hkeys : (from_tree t).map Prod.fst = t.symbols.reverse := by
    rw [from_tree_eq hnd, List.map_reverse, codesOf_keys]
  refine ⟨?_, ?_, ?_, ?_⟩
  · intro s c
    rw [leafCodes_nil]
    exact mapGet_from_tree hnd s c
  · rw [hkeys, List.nodup_reverse]
    exact hnd
  · rw [hkeys]
    exact List.reverse_perm t.symbols
  · intro s
    simp [from_tree, visit_tree, mapInsert]

theorem claim_codeword_derivation_witness :
    (mapGet (from_tree (HuffmanNode.branch (HuffmanNode.leaf 1)
        (HuffmanNode.leaf 0))) 0 = some [true] ↔
      ((0 : Nat), [true]) ∈ leafCodes (HuffmanNode.branch
        (HuffmanNode.leaf 1) (HuffmanNode.leaf 0)) []) ∧
    ((from_tree (HuffmanNode.branch (HuffmanNode.leaf 1)
        (HuffmanNode.leaf 0))).map Prod.fst).Nodup ∧
    from_tree (HuffmanNode.leaf (5 : Nat)) = [(5, [])] := by
  have h := claim_codeword_derivation
    (HuffmanNode.branch (HuffmanNode.leaf (1 : Nat)) (HuffmanNode.leaf 0))
    (by decide)
  exact ⟨h.1 0 [true], h.2.1, h.2.2.2 5⟩

/-- C7: encoding returns the in-order concatenation of the codewords of
all stream symbols when every symbol has a codeword, and on the first
symbol absent from the map fails with exactly that symbol, returning no
partial output. -/
theorem claim_encode_contract (symbols : List (α × List Bool)) :
    (∀ stream : List α, (∀ s ∈ stream, (mapGet symbols s).isSome) →
      encode symbols stream = Except.ok (codebits symbols stream)) ∧
    (∀ (pre : List α) (s : α) (post : List α),
      (∀ x ∈ pre, (mapGet symbols x).isSome) → mapGet symbols s = none →
      encode symbols (pre ++ s :: post) = Except.error s) :=
  ⟨fun stream h => encode_ok symbols stream h,
   fun pre s post hpre hs => encodeGo_err symbols pre s post hpre hs []⟩

theorem claim_encode_contract_witness :
    encode [((0 : Nat), [true]), (1, [false, true])] [0, 1, 0] =
      Except.ok [true, false, true, true] ∧
    encode [((0 : Nat), [true])] [0, 2, 0] = Except.error 2 :=
  ⟨(claim_encode_contract [((0 : Nat), [true]), (1, [false, true])]).1
      [0, 1, 0] (by decide),
   (claim_encode_contract [((0 : Nat), [true])]).2 [0] 2 [0]
      (by decide) (by decide)⟩

/-- C8: building a tree twice from frequency tables with identical
symbol-to-count contents — i.e. from any two permutations of the same
entry list with distinct symbols — yields identical trees. -/
theorem claim_builder_deterministic (t1 t2 : List (α × Nat))
    (hp : t1.Perm t2) (hnd : (t1.map Prod.fst).Nodup) :
    into_huffman_tree t1 = into_huffman_tree t2 :=
  into_huffman_tree_perm hp hnd

theorem claim_builder_deterministic_witness :
    into_huffman_tree [((0 : Nat), 5), (1, 3)] =
      into_huffman_tree [((1 : Nat), 3), (0, 5)] :=
  claim_builder_deterministic [((0 : Nat), 5), (1, 3)]
    [((1 : Nat), 3), (0, 5)] (by decide) (by decide)

/-- C9: the concrete scenario A:10, B:2, C:2 (A=0, B=1, C=2 as naturals):
the built tree gives A the strictly shortest codeword `0`, B and C the
tied-length codewords `11` and `10` fixed by the tie-break (B < C), and
encoding the 13-symbol golden sequence yields the fixed 17-bit golden
output (the bits of the bytes `0b00110010 0b10000011 0b0` of the source's
`three_symbols_encoding_is_correct` test). -/
theorem claim_golden_vector :
    into_huffman_tree [(0, 10), (1, 2), (2, 2)] =
      some (HuffmanNode.branch (HuffmanNode.leaf 0)
        (HuffmanNode.branch (HuffmanNode.leaf 2) (HuffmanNode.leaf 1))) ∧
    mapGet (from_tree (HuffmanNode.branch (HuffmanNode.leaf 0)
      (HuffmanNode.branch (HuffmanNode.leaf 2) (HuffmanNode.leaf 1)))) 0 =
      some [false] ∧
    mapGet (from_tree (HuffmanNode.branch (HuffmanNode.leaf 0)
      (HuffmanNode.branch (HuffmanNode.leaf 2) (HuffmanNode.leaf 1)))) 1 =
      some [true, true] ∧
    mapGet (from_tree (HuffmanNode.branch (HuffmanNode.leaf 0)
      (HuffmanNode.branch (HuffmanNode.leaf 2) (HuffmanNode.leaf 1)))) 2 =
      some [true, false] ∧
    encode (from_tree (HuffmanNode.branch (HuffmanNode.leaf 0)
      (HuffmanNode.branch (HuffmanNode.leaf 2) (HuffmanNode.leaf 1))))
      [0, 0, 1, 0, 0, 2, 2, 0, 0, 0, 0, 1, 0] =
      Except.ok [false, false, true, true, false, false, true, false, true,
        false, false, false, false, false, true, true, false] :=
  ⟨by decide, by decide, by decide, by decide, rfl⟩

/-- C10: at every merge step the second-removed (larger) node becomes the
Branch's first child (the `0` side) and the first-removed (smallest) node
the second child (the `1` side); consequently, of two tied-weight leaves
the smaller symbol receives the codeword ending in bit `1`. -/
theorem claim_merge_child_order :
    (∀ (heap : List (Weighted α)) (lower greater : Weighted α)
        (rest rest2 : List (Weighted α)),
      1 < heap.length → popMin heap = some (lower, rest) →
      popMin rest = some (greater, rest2) →
      mergeLoop heap =
        mergeLoop (Weighted.new_branch greater lower :: rest2) ∧
      (Weighted.new_branch greater lower).node =
        HuffmanNode.branch greater.node lower.node) ∧
    (∀ (s1 s2 : α) (w : Nat), s1 < s2 →
      into_huffman_tree [(s1, w), (s2, w)] =
        some (HuffmanNode.branch (HuffmanNode.leaf s2)
          (HuffmanNode.leaf s1)) ∧
      mapGet (from_tree (HuffmanNode.branch (HuffmanNode.leaf s2)
        (HuffmanNode.leaf s1))) s1 = some [true] ∧
      mapGet (from_tree (HuffmanNode.branch (HuffmanNode.leaf s2)
        (HuffmanNode.leaf s1))) s2 = some [false]) := by
  constructor
  · intro heap lower greater rest rest2 hlen hp1 hp2
    exact ⟨mergeLoop_step hlen hp1 hp2, rfl⟩
  · intro s1 s2 w h
    have hne : s1 ≠ s2 := ne_of_lt h
    have hww : compare w w = Ordering.eq := compare_eq_iff_eq.2 rfl
    have hgt : compare s2 s1 = Ordering.gt := compare_gt_iff_gt.2 h
    have hcmp : Weighted.cmp (Weighted.new_leaf s2 w)
        (Weighted.new_leaf s1 w) = Ordering.gt := by
      simp [Weighted.cmp, Weighted.new_leaf, hww, hgt]
    have hpop1 : popMin [Weighted.new_leaf s1 w, Weighted.new_leaf s2 w] =
        some (Weighted.new_leaf s1 w, [Weighted.new_leaf s2 w]) := by
      simp [popMin, hcmp]
    have hpop2 : popMin [Weighted.new_leaf s2 w] =
        some (Weighted.new_leaf s2 w, []) := by
      simp [popMin]
    refine ⟨?_, ?_, ?_⟩
    · unfold into_huffman_tree
      rw [if_neg (by simp)]
      have hmap : [(s1, w), (s2, w)].map
          (fun p => Weighted.new_leaf p.1 p.2) =
          [Weighted.new_leaf s1 w, Weighted.new_leaf s2 w] := rfl
      rw [hmap, mergeLoop_step (by simp) hpop1 hpop2,
        mergeLoop_base (by simp)]
      simp [popMin, Weighted.new_branch, Weighted.new_leaf]
    · simp [from_tree, visit_tree, mapInsert, mapGet, Ne.symm hne]
    · simp [from_tree, visit_tree, mapInsert, mapGet, hne, Ne.symm hne]

theorem claim_merge_child_order_witness :
    (mergeLoop [Weighted.new_leaf (0 : Nat) 1, Weighted.new_leaf 1 2] =
      mergeLoop [Weighted.new_branch (Weighted.new_leaf 1 2)
        (Weighted.new_leaf 0 1)] ∧
      (Weighted.new_branch (Weighted.new_leaf (1 : Nat) 2)
        (Weighted.new_leaf 0 1)).node =
        HuffmanNode.branch (HuffmanNode.leaf 1) (HuffmanNode.leaf 0)) ∧
    (into_huffman_tree [((0 : Nat), 4), (1, 4)] =
      some (HuffmanNode.branch (HuffmanNode.leaf 1) (HuffmanNode.leaf 0)) ∧
      mapGet (from_tree (HuffmanNode.branch (HuffmanNode.leaf (1 : Nat))
        (HuffmanNode.leaf 0))) 0 = some [true] ∧
      mapGet (from_tree (HuffmanNode.branch (HuffmanNode.leaf (1 : Nat))
        (HuffmanNode.leaf 0))) 1 = some [false]) :=
  ⟨(@claim_merge_child_order Nat _).1
      [Weighted.new_leaf 0 1, Weighted.new_leaf 1 2]
      (Weighted.new_leaf 0 1) (Weighted.new_leaf 1 2)
      [Weighted.new_leaf 1 2] [] (by decide) (by decide) (by decide),
   (@claim_merge_child_order Nat _).2 0 1 4 (by decide)⟩

end Rhuffman
